import Mathlib

/-
  Verification of the flint dependency-lockfile analyzer.

  This file gives a shallow embedding of the Go package internal/flake
  (files util.go, updates.go, types.go) and proves properties about it.
  Go maps are modelled as association lists with unique keys; Go map
  iteration, which is unordered in Go, is modelled as iteration in list
  order (every property proved here is insensitive to that order).
  Network access done by getLatestCommitHTTP is modelled as an oracle
  parameter mapping a git URL and ref to either a commit hash or an
  error message.  The verbose flag only controls printing and is dropped.
-/

set_option maxRecDepth 4096

namespace Flint

/-- Association-list lookup, modelling Go map indexing (keys are unique). -/
def alookup {α : Type} : List (String × α) → String → Option α
  | [], _ => none
  | (k, v) :: rest, key => if k = key then some v else alookup rest key

/-! ## Data model (types.go) -/

/-- Locked descriptor of a node, from types.go. -/
structure Locked where
  lastModified : Int := 0
  narHash : String := ""
  owner : String := ""
  repo : String := ""
  rev : String := ""
  type : String := ""
  host : String := ""
  url : String := ""
  path : String := ""
deriving DecidableEq

/-- Original (user-authored) descriptor of a node, from types.go. -/
structure Original where
  owner : String := ""
  ref : String := ""
  repo : String := ""
  type : String := ""
deriving DecidableEq

/-- An element of a follows-style input list: a string, or any other JSON value. -/
inductive InVal where
  | vstr (s : String)
  | vother
deriving DecidableEq

/-- A value of the inputs map of a node: a single node name, a list, or
any other JSON value (Go models this as map value type any). -/
inductive InputRef where
  | rstr (s : String)
  | rlist (xs : List InVal)
  | rother
deriving DecidableEq

/-- A node of the lock graph, from types.go.  The inputs field is optional
because Go distinguishes a nil map (absent field) from an empty map. -/
structure Node where
  locked : Option Locked := none
  original : Option Original := none
  inputs : Option (List (String × InputRef)) := none
deriving DecidableEq

/-- The whole lock graph, from types.go. -/
structure FlakeLock where
  nodes : List (String × Node) := []
  root : String := ""
  version : Int := 0
deriving DecidableEq

/-- Forward and reverse reference maps, from types.go. -/
structure Relations where
  deps : List (String × List String) := []
  reverseDeps : List (String × List String) := []
deriving DecidableEq

/-- Repository descriptor used by generateRepoURL, from types.go. -/
structure Input where
  type : String := ""
  owner : String := ""
  repo : String := ""
  host : String := ""
  url : String := ""
  path : String := ""
deriving DecidableEq

/-! ## util.go -/

/-- generateRepoURL from util.go: canonical identity URL of a repository. -/
def generateRepoURL (repo : Input) : String :=
  if repo.type = "github" ∨ repo.type = "gitlab" ∨ repo.type = "sourcehut" then
    let url := repo.type ++ ":" ++ repo.owner ++ "/" ++ repo.repo
    if repo.host ≠ "" then url ++ "?host=" ++ repo.host else url
  else if repo.type = "git" ∨ repo.type = "hg" ∨ repo.type = "tarball" then
    repo.type ++ ":" ++ repo.url
  else if repo.type = "path" then
    repo.type ++ ":" ++ repo.path
  else
    ""

/-- The Input record built at the start of flakeURL from the locked map.
In AnalyzeFlake that map is populated exactly from the Locked fields, and
safeGetString returns each stored string unchanged, so this is a plain
field-by-field copy. -/
def lockedInput (l : Locked) : Input :=
  { type := l.type, owner := l.owner, repo := l.repo,
    host := l.host, url := l.url, path := l.path }

/-- flakeURL from util.go: version-qualified URL of a locked descriptor. -/
def flakeURL (l : Locked) : String :=
  let url := generateRepoURL (lockedInput l)
  if l.rev ≠ "" ∨ l.narHash ≠ "" then
    let url := url ++ "?"
    let url := if l.rev ≠ "" then url ++ "rev=" ++ l.rev else url
    let url := if l.narHash ≠ "" then
        (if l.rev ≠ "" then url ++ "&" else url) ++ "narHash=" ++ l.narHash
      else url
    url
  else
    url

/-- First pass of AnalyzeFlake: map each node name with a locked descriptor
whose flakeURL is non-empty to that URL. -/
def nodeToURL (nodes : List (String × Node)) : List (String × String) :=
  nodes.filterMap (fun p =>
    match p.2.locked with
    | some l =>
      let url := flakeURL l
      if url = "" then none else some (p.1, url)
    | none => none)

/-- Append v to the list stored at key k, modelling the Go idiom
m[k] = append(m[k], v) on a map of slices. -/
def addDep (m : List (String × List String)) (k v : String) :
    List (String × List String) :=
  match m with
  | [] => [(k, [v])]
  | (k', vs) :: rest =>
    if k' = k then (k', vs ++ [v]) :: rest else (k', vs) :: addDep rest k v

/-- One resolved target reference in the second pass of AnalyzeFlake. -/
def processTarget (ntu : List (String × String)) (nodeName : String)
    (acc : Relations) (target : String) : Relations :=
  match alookup ntu target with
  | some url =>
    { deps := addDep acc.deps url nodeName,
      reverseDeps := addDep acc.reverseDeps target nodeName }
  | none => acc

/-- One entry of a node's inputs map in the second pass of AnalyzeFlake:
a string is resolved directly, a list is walked keeping only strings,
anything else is ignored (the Go type switch default). -/
def processInputRef (ntu : List (String × String)) (nodeName : String)
    (acc : Relations) (r : InputRef) : Relations :=
  match r with
  | .rstr s => processTarget ntu nodeName acc s
  | .rlist xs =>
    xs.foldl (fun acc v =>
      match v with
      | .vstr s => processTarget ntu nodeName acc s
      | .vother => acc) acc
  | .rother => acc

/-- AnalyzeFlake from util.go. -/
def AnalyzeFlake (fl : FlakeLock) : Relations :=
  let ntu := nodeToURL fl.nodes
  fl.nodes.foldl (fun acc p =>
    match p.2.inputs with
    | some ins => ins.foldl (fun acc q => processInputRef ntu p.1 acc q.2) acc
    | none => acc) { deps := [], reverseDeps := [] }

/-- Index of the first occurrence of pat in a character list, modelling
Go strings.Index (any occurrence of an ASCII pattern in valid UTF-8 lies
on a rune boundary, so character positions are faithful to byte offsets
for the slicing done with them). -/
def subIndex (pat : List Char) : List Char → Option Nat
  | [] => if pat = [] then some 0 else none
  | c :: t =>
    if pat.isPrefixOf (c :: t) then some 0
    else (subIndex pat t).map (· + 1)

/-- List-level body of ExtractRepoIdentity from util.go.  The number 6 is
the length of the literal "?host=", as in the Go source. -/
def extractL (cs : List Char) : List Char :=
  match subIndex "?host=".toList cs with
  | some hostIdx =>
    match subIndex ['?'] (cs.drop (hostIdx + 6)) with
    | some versionIdx => cs.take (hostIdx + 6 + versionIdx)
    | none => cs
  | none =>
    match subIndex ['?'] cs with
    | some idx => cs.take idx
    | none => cs

/-- ExtractRepoIdentity from util.go: strip version qualifiers from a
version-qualified URL, keeping a ?host= component. -/
def ExtractRepoIdentity (url : String) : String :=
  String.mk (extractL url.data)

/-! ## updates.go -/

/-- Per-input update result, from types.go. -/
structure UpdateStatus where
  inputName : String := ""
  currentRev : String := ""
  currentURL : String := ""
  latestRev : String := ""
  latestURL : String := ""
  isUpdate : Bool := false
  error : String := ""
deriving DecidableEq

/-- Batch update result, from types.go. -/
structure UpdateResults where
  updates : List UpdateStatus := []
deriving DecidableEq

/-- Network oracle modelling getLatestCommitHTTP: maps a git URL and a
ref to a commit hash or an error message. -/
def Oracle : Type := String → String → Except String String

/-- buildFlakeURL from updates.go (takes a possibly nil Locked pointer). -/
def buildFlakeURL : Option Locked → String
  | none => ""
  | some l =>
    if l.type = "github" ∨ l.type = "gitlab" ∨ l.type = "sourcehut" then
      let url := l.type ++ ":" ++ l.owner ++ "/" ++ l.repo
      if l.host ≠ "" ∧ l.host ≠ "github.com" ∧ l.host ≠ "gitlab.com" then
        url ++ "?host=" ++ l.host
      else url
    else if l.type = "git" then l.url
    else if l.type = "path" then l.path
    else if l.type = "tarball" then l.url
    else ""

/-- isCommitHash from updates.go: exactly 40 characters, each a digit or
a lowercase hex letter.  Go checks the byte length first and then walks
runes; for the char-list model this is equivalent, since any non-ASCII
character fails the hex-range test and also perturbs the byte length in
the same (rejecting) direction. -/
def isCommitHash (s : String) : Bool :=
  (s.data.length == 40) &&
    s.data.all (fun c => (('0' ≤ c && c ≤ '9') || ('a' ≤ c && c ≤ 'f')))

/-!
Tarball URL pattern from getLatestRevisionFromTarball, in Go a regexp:

  (https?://[^/]+/[^/]+/[^/]+)/(?:archive|releases/download)/
  (?:refs/tags/)?([^/]+)(?:/[^/]+)?(?:\.tar\.gz|\.zip|\.tar\.xz)

matched unanchored with leftmost-first (Perl-style) semantics, returning
capture groups 1 and 2.  The matcher below is a direct operational
translation.  Each [^/]+ that is immediately followed by a literal slash
in the pattern is deterministic (a shorter match leaves a non-slash
character where the slash is required), so those are taken as maximal
runs; the only genuine backtracking, implemented below via descend, is in
group 2 and the optional asset segment before the archive-extension
alternation, plus the optional refs/tags/ prefix. -/

/-- Try f at n, n-1, ..., 1 and return the first success: the greedy
backtracking order of a [^/]+ group whose match length is being chosen. -/
def descend {α : Type} (f : Nat → Option α) : Nat → Option α
  | 0 => none
  | n + 1 =>
    match f (n + 1) with
    | some r => some r
    | none => descend f n

/-- Does one of the three archive extensions match here? (Pattern end is
unanchored, so trailing characters are ignored.) -/
def extOK (s : List Char) : Bool :=
  ".tar.gz".toList.isPrefixOf s || ".zip".toList.isPrefixOf s ||
    ".tar.xz".toList.isPrefixOf s

/-- After group 2: optionally an extra /segment (greedy), then one of the
archive extensions.  Success is all that matters here since nothing after
group 2 is captured. -/
def tarTailOK (rest : List Char) : Bool :=
  (match rest with
   | '/' :: r =>
     let run := r.takeWhile (· ≠ '/')
     (descend (fun j => if extOK (r.drop j) then some () else none)
       run.length).isSome
   | _ => false)
  || extOK rest

/-- Group 2 of the tarball pattern: a nonempty run of non-slash
characters, greedy, whose remainder satisfies tarTailOK. -/
def matchG2 (s : List Char) : Option (List Char) :=
  let run := s.takeWhile (· ≠ '/')
  descend (fun i => if tarTailOK (s.drop i) then some (s.take i) else none)
    run.length

/-- Optional refs/tags/ prefix (greedy: with it first), then group 2. -/
def matchAfterAlt (s : List Char) : Option (List Char) :=
  match (if "refs/tags/".toList.isPrefixOf s
         then matchG2 (s.drop 10) else none) with
  | some g2 => some g2
  | none => matchG2 s

/-- The /(?:archive|releases/download)/ part after group 1.  The two
alternatives differ at their first character, so at a given position at
most one of the merged literals can match. -/
def matchAfterG1 (s : List Char) : Option (List Char) :=
  if "/archive/".toList.isPrefixOf s then matchAfterAlt (s.drop 9)
  else if "/releases/download/".toList.isPrefixOf s then
    matchAfterAlt (s.drop 19)
  else none

/-- One [^/]+ segment followed by a literal slash (deterministic; see the
note above): returns the segment and the rest after the slash. -/
def matchSeg (s : List Char) : Option (List Char × List Char) :=
  let run := s.takeWhile (· ≠ '/')
  if run.isEmpty then none
  else
    match s.drop run.length with
    | '/' :: rest => some (run, rest)
    | _ => none

/-- The part of the pattern after the scheme: three host/owner/repo
segments, then the archive part; returns (group1, group2) on success. -/
def tarballStep (scheme : List Char) (rest : List Char) :
    Option (List Char × List Char) :=
  match matchSeg rest with
  | none => none
  | some (seg1, r1) =>
    match matchSeg r1 with
    | none => none
    | some (seg2, r2) =>
      let seg3 := r2.takeWhile (· ≠ '/')
      if seg3.isEmpty then none
      else
        let g1 := scheme ++ seg1 ++ ['/'] ++ seg2 ++ ['/'] ++ seg3
        match matchAfterG1 (r2.drop seg3.length) with
        | some g2 => some (g1, g2)
        | none => none

/-- Attempt a match of the whole pattern starting exactly here.  The two
scheme spellings cannot both be prefixes of the same text (the fifth
characters differ), so the https?:// part is deterministic. -/
def tarballMatchAt (s : List Char) : Option (List Char × List Char) :=
  if "https://".toList.isPrefixOf s then tarballStep "https://".toList (s.drop 8)
  else if "http://".toList.isPrefixOf s then tarballStep "http://".toList (s.drop 7)
  else none

/-- Scan start positions left to right: the leftmost match wins, as in Go
FindStringSubmatch. -/
def tarballScan : List Char → Option (List Char × List Char)
  | [] => none
  | c :: t =>
    match tarballMatchAt (c :: t) with
    | some r => some r
    | none => tarballScan t

/-- The regexp match of getLatestRevisionFromTarball: on success returns
(capture group 1, capture group 2). -/
def tarballMatch (url : String) : Option (String × String) :=
  (tarballScan url.data).map (fun p => (String.mk p.1, String.mk p.2))

/-- getLatestRevisionFromTarball from updates.go.  On success the Go
function returns (latestURL, latestRev); errors are the error return. -/
def getLatestRevisionFromTarball (node : Node) (oracle : Oracle) :
    Except String (String × String) :=
  match node.locked with
  | none => .error "no tarball URL found"
  | some l =>
    if l.url = "" then .error "no tarball URL found"
    else
      match tarballMatch l.url with
      | none => .error ("cannot parse tarball URL: " ++ l.url)
      | some (repoBase, ref) =>
        let repoURL := repoBase ++ ".git"
        if isCommitHash ref then
          .error "tarball points to specific commit, skipping"
        else
          match oracle repoURL ref with
          | .error e => .error ("failed to get latest commit: " ++ e)
          | .ok rev => .ok (buildFlakeURL (some l), rev)

/-- getLatestRevision from updates.go. -/
def getLatestRevision (node : Node) (oracle : Oracle) :
    Except String (String × String) :=
  match node.locked with
  | none => .error "no locked information"
  | some l =>
    match node.original with
    | some o =>
      if o.type = "github" ∨ o.type = "gitlab" then
        let host := if l.host ≠ "" then l.host else o.type ++ ".com"
        let gitURL := "https://" ++ host ++ "/" ++ l.owner ++ "/" ++ o.repo ++ ".git"
        match oracle gitURL o.ref with
        | .error e => .error ("failed to get latest commit: " ++ e)
        | .ok rev => .ok (buildFlakeURL (some l), rev)
      else if o.type = "git" then
        let gitURL := l.url
        if "ssh://".isPrefixOf gitURL then .error "git+ssh URLs not supported"
        else
          match oracle gitURL o.ref with
          | .error e => .error ("failed to get latest commit: " ++ e)
          | .ok rev => .ok (buildFlakeURL (some l), rev)
      else if o.type = "tarball" then
        getLatestRevisionFromTarball node oracle
      else
        .error ("unsupported input type: " ++ o.type)
    | none =>
      if l.type = "github" ∨ l.type = "gitlab" ∨ l.type = "sourcehut" then
        let host := if l.host ≠ "" then l.host else l.type ++ ".com"
        let gitURL := "https://" ++ host ++ "/" ++ l.owner ++ "/" ++ l.repo ++ ".git"
        match oracle gitURL "" with
        | .error e => .error ("failed to get latest commit: " ++ e)
        | .ok rev => .ok (buildFlakeURL (some l), rev)
      else if l.type = "git" then
        match oracle l.url "" with
        | .error e => .error ("failed to get latest commit: " ++ e)
        | .ok rev => .ok (buildFlakeURL (some l), rev)
      else
        .error ("unsupported locked type: " ++ l.type)

/-- The pinned-commit guard of checkInputUpdate:
node.Original != nil and node.Original.Ref != "" and isCommitHash(ref). -/
def pinnedRef : Option Original → Bool
  | some o => !(o.ref == "") && isCommitHash o.ref
  | none => false

/-- checkInputUpdate from updates.go. -/
def checkInputUpdate (fl : FlakeLock) (inputName inputRef : String)
    (oracle : Oracle) : UpdateStatus :=
  match alookup fl.nodes inputRef with
  | none =>
    { inputName := inputName,
      error := "input node " ++ inputRef ++ " not found" }
  | some node =>
    match node.locked with
    | none =>
      { inputName := inputName,
        error := "input " ++ inputName ++ " has no locked version" }
    | some l =>
      if pinnedRef node.original then
        { inputName := inputName,
          currentRev := l.rev, currentURL := buildFlakeURL (some l),
          latestRev := l.rev, latestURL := buildFlakeURL (some l),
          isUpdate := false }
      else
        match getLatestRevision node oracle with
        | .error e =>
          { inputName := inputName,
            currentRev := l.rev, currentURL := buildFlakeURL (some l),
            error := "failed to get latest revision: " ++ e }
        | .ok (latestURL, latestRev) =>
          { inputName := inputName,
            currentRev := l.rev, currentURL := buildFlakeURL (some l),
            latestURL := latestURL, latestRev := latestRev,
            isUpdate := !(latestRev == "") && !(latestRev == l.rev) }

/-- The body of the per-input goroutine in CheckUpdates: a non-string
input reference yields the invalid-reference status, a string reference
is checked by checkInputUpdate. -/
def processRootInput (fl : FlakeLock) (oracle : Oracle)
    (p : String × InputRef) : UpdateStatus :=
  match p.2 with
  | .rstr s => checkInputUpdate fl p.1 s oracle
  | _ => { inputName := p.1, error := "invalid input reference type" }

/-- CheckUpdates from updates.go.  The Go function returns the pair
(UpdateResults, error); the error is modelled as an Option String.  The
concurrent workers append results in completion order; here they are
collected in the (unspecified in Go) iteration order of the root inputs
map, modelled as list order. -/
def CheckUpdates (fl : FlakeLock) (oracle : Oracle) :
    UpdateResults × Option String :=
  match alookup fl.nodes "root" with
  | none => ({ updates := [] }, some "no root inputs found")
  | some rootNode =>
    match rootNode.inputs with
    | none => ({ updates := [] }, some "no root inputs found")
    | some ins =>
      ({ updates := ins.map (processRootInput fl oracle) }, none)

/-! ## Helper lemmas about subIndex and extractL -/

theorem subIndex_cons_pos (pat : List Char) (c : Char) (t : List Char)
    (h : pat.isPrefixOf (c :: t) = true) : subIndex pat (c :: t) = some 0 := by
  simp [subIndex, h]

theorem subIndex_cons_neg (pat : List Char) (c : Char) (t : List Char)
    (h : pat.isPrefixOf (c :: t) = false) :
    subIndex pat (c :: t) = (subIndex pat t).map (· + 1) := by
  simp [subIndex, h]

theorem isPrefixOf_cons_of_head_ne (c a : Char) (pt t : List Char)
    (h : c ≠ a) : (c :: pt).isPrefixOf (a :: t) = false := by
  simp [List.isPrefixOf, h]

theorem subIndex_none_of_head_notMem (c : Char) (pt l : List Char)
    (h : c ∉ l) : subIndex (c :: pt) l = none := by
  induction l with
  | nil => rfl
  | cons a t ih =>
    have hca : c ≠ a := fun e => h (e ▸ List.mem_cons_self a t)
    rw [subIndex_cons_neg _ _ _ (isPrefixOf_cons_of_head_ne c a pt t hca),
      ih (fun hm => h (List.mem_cons_of_mem a hm))]
    rfl

theorem subIndex_append_of_head_notMem (c : Char) (pt xs ys : List Char)
    (h : c ∉ xs) :
    subIndex (c :: pt) (xs ++ ys) =
      (subIndex (c :: pt) ys).map (· + xs.length) := by
  induction xs with
  | nil =>
    rw [List.nil_append]
    cases h' : subIndex (c :: pt) ys <;> simp [h']
  | cons a t ih =>
    have hca : c ≠ a := fun e => h (e ▸ List.mem_cons_self a t)
    rw [List.cons_append,
      subIndex_cons_neg _ _ _ (isPrefixOf_cons_of_head_ne c a pt _ hca),
      ih (fun hm => h (List.mem_cons_of_mem a hm))]
    cases h' : subIndex (c :: pt) ys
    · simp [h']
    · simp [h']
      omega

theorem subIndex_append_self (c : Char) (pt rest : List Char) :
    subIndex (c :: pt) ((c :: pt) ++ rest) = some 0 := by
  apply subIndex_cons_pos
  exact List.isPrefixOf_iff_prefix.mpr (List.prefix_append (c :: pt) rest)

/-- The shape of the version suffix needed below: either empty, or a
question mark followed by question-mark-free text not starting with the
word host and an equals sign. -/
def VersionSuffixShape (suffix : List Char) : Prop :=
  suffix = [] ∨ ∃ rest, suffix = '?' :: rest ∧ '?' ∉ rest ∧
    ("host=".toList).isPrefixOf rest = false

theorem extractL_none_none (cs : List Char)
    (h1 : subIndex "?host=".toList cs = none)
    (h2 : subIndex ['?'] cs = none) : extractL cs = cs := by
  unfold extractL
  simp only [h1, h2]

theorem extractL_none_some (cs : List Char) (i : Nat)
    (h1 : subIndex "?host=".toList cs = none)
    (h2 : subIndex ['?'] cs = some i) : extractL cs = cs.take i := by
  unfold extractL
  simp only [h1, h2]

theorem extractL_some_none (cs : List Char) (i : Nat)
    (h1 : subIndex "?host=".toList cs = some i)
    (h2 : subIndex ['?'] (cs.drop (i + 6)) = none) : extractL cs = cs := by
  unfold extractL
  simp only [h1, h2]

theorem extractL_some_some (cs : List Char) (i j : Nat)
    (h1 : subIndex "?host=".toList cs = some i)
    (h2 : subIndex ['?'] (cs.drop (i + 6)) = some j) :
    extractL cs = cs.take (i + 6 + j) := by
  unfold extractL
  simp only [h1, h2]

theorem extractL_no_host (base suffix : List Char)
    (hb : '?' ∉ base) (hs : VersionSuffixShape suffix) :
    extractL (base ++ suffix) = base := by
  rcases hs with h | ⟨rest, hrest, hq, hpre⟩
  · subst h
    rw [List.append_nil]
    exact extractL_none_none base
      (subIndex_none_of_head_notMem _ _ _ hb)
      (subIndex_none_of_head_notMem _ _ _ hb)
  · subst hrest
    have hpre' : ("host=".toList).isPrefixOf rest = false := hpre
    have h1 : subIndex "?host=".toList (base ++ '?' :: rest) = none := by
      rw [show "?host=".toList = '?' :: "host=".toList from rfl,
        subIndex_append_of_head_notMem _ _ _ _ hb]
      have hx : ('?' :: "host=".toList).isPrefixOf ('?' :: rest) = false := by
        show (('?' == '?') && ("host=".toList).isPrefixOf rest) = false
        rw [hpre', Bool.and_false]
      rw [subIndex_cons_neg _ _ _ hx, subIndex_none_of_head_notMem _ _ _ hq]
      rfl
    have h2 : subIndex ['?'] (base ++ '?' :: rest) = some base.length := by
      rw [subIndex_append_of_head_notMem '?' [] _ _ hb,
        subIndex_cons_pos _ _ _ (by simp [List.isPrefixOf])]
      simp
    rw [extractL_none_some _ _ h1 h2]
    exact List.take_left base _

theorem extractL_host (preL h suffix : List Char)
    (hp : '?' ∉ preL) (hh : '?' ∉ h)
    (hs : suffix = [] ∨ ∃ rest, suffix = '?' :: rest) :
    extractL (preL ++ "?host=".toList ++ h ++ suffix) =
      preL ++ "?host=".toList ++ h := by
  have hfind : subIndex "?host=".toList (preL ++ "?host=".toList ++ h ++ suffix) =
      some preL.length := by
    rw [show preL ++ "?host=".toList ++ h ++ suffix =
      preL ++ ("?host=".toList ++ (h ++ suffix)) by simp [List.append_assoc]]
    rw [show "?host=".toList = '?' :: "host=".toList from rfl,
      subIndex_append_of_head_notMem _ _ _ _ hp, subIndex_append_self]
    simp
  have hdrop : (preL ++ "?host=".toList ++ h ++ suffix).drop (preL.length + 6) =
      h ++ suffix := by
    rw [show preL ++ "?host=".toList ++ h ++ suffix =
      (preL ++ "?host=".toList) ++ (h ++ suffix) by simp [List.append_assoc]]
    rw [show preL.length + 6 = (preL ++ "?host=".toList).length by simp]
    exact List.drop_left _ _
  rcases hs with h0 | ⟨rest, hrest⟩
  · subst h0
    have h2 : subIndex ['?']
        ((preL ++ "?host=".toList ++ h ++ []).drop (preL.length + 6)) = none := by
      rw [hdrop, List.append_nil]
      exact subIndex_none_of_head_notMem _ _ _ hh
    rw [extractL_some_none _ _ hfind h2, List.append_nil]
  · subst hrest
    have h2 : subIndex ['?']
        ((preL ++ "?host=".toList ++ h ++ '?' :: rest).drop (preL.length + 6)) =
        some h.length := by
      rw [hdrop, subIndex_append_of_head_notMem '?' [] _ _ hh,
        subIndex_cons_pos _ _ _ (by simp [List.isPrefixOf])]
      simp
    rw [extractL_some_some _ _ _ hfind h2]
    rw [show preL.length + 6 + h.length =
      (preL ++ "?host=".toList ++ h).length by simp; omega]
    exact List.take_left _ _

/-! ## Decomposition of flakeURL into identity and version suffix -/

/-- The version-qualifying suffix appended by flakeURL, at character level. -/
def verSuffix (rev nar : List Char) : List Char :=
  if rev = [] ∧ nar = [] then []
  else
    '?' :: ((if rev = [] then [] else "rev=".toList ++ rev) ++
      (if nar = [] then []
       else (if rev = [] then [] else ['&']) ++ "narHash=".toList ++ nar))

theorem data_eq_nil_iff (s : String) : s.data = [] ↔ s = "" := by
  constructor
  · intro h
    exact String.ext h
  · intro h
    rw [h]

theorem flakeURL_data (l : Locked) :
    (flakeURL l).data =
      (generateRepoURL (lockedInput l)).data ++
        verSuffix l.rev.data l.narHash.data := by
  unfold flakeURL verSuffix
  by_cases hr : l.rev = "" <;> by_cases hn : l.narHash = ""
  · have hr' : l.rev.data = [] := by rw [hr]
    have hn' : l.narHash.data = [] := by rw [hn]
    simp [hr, hn, hr', hn']
  · have hr' : l.rev.data = [] := by rw [hr]
    have hn' : l.narHash.data ≠ [] := fun h => hn ((data_eq_nil_iff _).mp h)
    simp [hr, hn, hr', hn']
  · have hr' : l.rev.data ≠ [] := fun h => hr ((data_eq_nil_iff _).mp h)
    have hn' : l.narHash.data = [] := by rw [hn]
    simp [hr, hn, hr', hn']
  · have hr' : l.rev.data ≠ [] := fun h => hr ((data_eq_nil_iff _).mp h)
    have hn' : l.narHash.data ≠ [] := fun h => hn ((data_eq_nil_iff _).mp h)
    simp [hr, hn, hr', hn']

theorem verSuffix_shape (rev nar : List Char)
    (hr : '?' ∉ rev) (hn : '?' ∉ nar) :
    VersionSuffixShape (verSuffix rev nar) := by
  by_cases hre : rev = []
  · by_cases hne : nar = []
    · left
      simp [verSuffix, hre, hne]
    · right
      subst hre
      refine ⟨"narHash=".toList ++ nar, ?_, ?_, ?_⟩
      · simp [verSuffix, hne]
      · intro hm
        rcases List.mem_append.mp hm with h | h
        · revert h
          decide
        · exact hn h
      · rfl
  · by_cases hne : nar = []
    · right
      refine ⟨"rev=".toList ++ rev, ?_, ?_, ?_⟩
      · simp [verSuffix, hre, hne]
      · intro hm
        rcases List.mem_append.mp hm with h | h
        · revert h
          decide
        · exact hr h
      · rfl
    · right
      refine ⟨"rev=".toList ++ rev ++ ('&' :: ("narHash=".toList ++ nar)),
        ?_, ?_, ?_⟩
      · simp [verSuffix, hre, hne, List.append_assoc]
      · intro hm
        rcases List.mem_append.mp hm with h | h
        · rcases List.mem_append.mp h with h' | h'
          · revert h'
            decide
          · exact hr h'
        · rcases List.mem_cons.mp h with h' | h'
          · exact absurd h' (by decide)
          · rcases List.mem_append.mp h' with h'' | h''
            · revert h''
              decide
            · exact hn h''
      · rfl

/-- The possible shapes of an identity URL for the purposes of
ExtractRepoIdentity: either free of question marks, or ending in a
well-formed ?host= component whose prefix and host value are free of
question marks. -/
def BaseShape (base host : String) : Prop :=
  ('?' ∉ base.data) ∨
  (∃ preL, base.data = preL ++ "?host=".toList ++ host.data ∧
    '?' ∉ preL ∧ '?' ∉ host.data)

theorem extract_flakeURL (l : Locked)
    (hbase : BaseShape (generateRepoURL (lockedInput l)) l.host)
    (hrev : '?' ∉ l.rev.data) (hnar : '?' ∉ l.narHash.data) :
    ExtractRepoIdentity (flakeURL l) = generateRepoURL (lockedInput l) := by
  have hshape := verSuffix_shape l.rev.data l.narHash.data hrev hnar
  apply String.ext
  show (extractL (flakeURL l).data) = _
  rw [flakeURL_data]
  rcases hbase with hb | ⟨preL, hpre, hq, hqh⟩
  · exact extractL_no_host _ _ hb hshape
  · rw [hpre]
    have hs2 : verSuffix l.rev.data l.narHash.data = [] ∨
        ∃ rest, verSuffix l.rev.data l.narHash.data = '?' :: rest := by
      rcases hshape with h | ⟨rest, hr, _, _⟩
      · exact Or.inl h
      · exact Or.inr ⟨rest, hr⟩
    exact extractL_host preL l.host.data _ hq hqh hs2

theorem gen_family_eq (r : Input)
    (h : r.type = "github" ∨ r.type = "gitlab" ∨ r.type = "sourcehut") :
    generateRepoURL r =
      if r.host ≠ "" then
        r.type ++ ":" ++ r.owner ++ "/" ++ r.repo ++ "?host=" ++ r.host
      else r.type ++ ":" ++ r.owner ++ "/" ++ r.repo := by
  simp only [generateRepoURL, if_pos h]

theorem family_type_no_qmark (t : String)
    (h : t = "github" ∨ t = "gitlab" ∨ t = "sourcehut") : '?' ∉ t.data := by
  rcases h with h | h | h <;> rw [h] <;> decide

theorem base_shape_family (l : Locked)
    (h : l.type = "github" ∨ l.type = "gitlab" ∨ l.type = "sourcehut")
    (ho : '?' ∉ l.owner.data) (hr : '?' ∉ l.repo.data)
    (hh : '?' ∉ l.host.data) :
    BaseShape (generateRepoURL (lockedInput l)) l.host := by
  have ht : (lockedInput l).type = l.type := rfl
  have h' : (lockedInput l).type = "github" ∨ (lockedInput l).type = "gitlab" ∨
      (lockedInput l).type = "sourcehut" := by rw [ht]; exact h
  have htq := family_type_no_qmark l.type h
  by_cases hhost : l.host = ""
  · left
    rw [gen_family_eq _ h']
    have : (lockedInput l).host = l.host := rfl
    simp [this, hhost, lockedInput, htq, ho, hr]
  · right
    refine ⟨(l.type ++ ":" ++ l.owner ++ "/" ++ l.repo).data, ?_, ?_, hh⟩
    · rw [gen_family_eq _ h']
      simp [lockedInput, hhost, List.append_assoc]
    · simp [htq, ho, hr]

/-- Splitting around the first occurrence of a separator character. -/
theorem append_sep_inj (sep : Char) (a1 b1 a2 b2 : List Char)
    (h1 : sep ∉ a1) (h2 : sep ∉ a2)
    (he : a1 ++ sep :: b1 = a2 ++ sep :: b2) : a1 = a2 ∧ b1 = b2 := by
  induction a1 generalizing a2 with
  | nil =>
    cases a2 with
    | nil =>
      simp only [List.nil_append, List.cons.injEq] at he
      exact ⟨rfl, he.2⟩
    | cons a t =>
      exfalso
      simp only [List.nil_append, List.cons_append, List.cons.injEq] at he
      exact h2 (he.1 ▸ List.mem_cons_self a t)
  | cons a t ih =>
    cases a2 with
    | nil =>
      exfalso
      simp only [List.cons_append, List.nil_append, List.cons.injEq] at he
      exact h1 (he.1.symm ▸ List.mem_cons_self a t)
    | cons a' t' =>
      simp only [List.cons_append, List.cons.injEq] at he
      have hih := ih t' (fun hm => h1 (List.mem_cons_of_mem a hm))
        (fun hm => h2 (List.mem_cons_of_mem a' hm)) he.2
      exact ⟨by rw [he.1, hih.1], hih.2⟩

theorem heads_ne {a b : Char} {x y : List Char} (hab : a ≠ b) :
    a :: x ≠ b :: y := by
  intro h
  injection h with h1 _
  exact hab h1

theorem verSuffix_empty_empty : verSuffix [] [] = [] := by
  simp [verSuffix]

theorem verSuffix_rev_only (r : List Char) (hr : r ≠ []) :
    verSuffix r [] = '?' :: ("rev=".toList ++ r) := by
  simp [verSuffix, hr]

theorem verSuffix_nar_only (n : List Char) (hn : n ≠ []) :
    verSuffix [] n = '?' :: ("narHash=".toList ++ n) := by
  simp [verSuffix, hn]

theorem verSuffix_both (r n : List Char) (hr : r ≠ []) (hn : n ≠ []) :
    verSuffix r n =
      '?' :: ("rev=".toList ++ r ++ '&' :: ("narHash=".toList ++ n)) := by
  simp [verSuffix, hr, hn, List.append_assoc]

theorem verSuffix_inj (r1 n1 r2 n2 : List Char)
    (h1 : '&' ∉ r1) (h2 : '&' ∉ r2)
    (he : verSuffix r1 n1 = verSuffix r2 n2) : r1 = r2 ∧ n1 = n2 := by
  by_cases hr1 : r1 = []
  · by_cases hn1 : n1 = []
    · subst hr1
      subst hn1
      rw [verSuffix_empty_empty] at he
      by_cases hr2 : r2 = []
      · by_cases hn2 : n2 = []
        · subst hr2
          subst hn2
          exact ⟨rfl, rfl⟩
        · subst hr2
          rw [verSuffix_nar_only n2 hn2] at he
          exact absurd he (by simp)
      · by_cases hn2 : n2 = []
        · subst hn2
          rw [verSuffix_rev_only r2 hr2] at he
          exact absurd he (by simp)
        · rw [verSuffix_both r2 n2 hr2 hn2] at he
          exact absurd he (by simp)
    · subst hr1
      rw [verSuffix_nar_only n1 hn1] at he
      by_cases hr2 : r2 = []
      · by_cases hn2 : n2 = []
        · subst hr2
          subst hn2
          rw [verSuffix_empty_empty] at he
          exact absurd he (by simp)
        · subst hr2
          rw [verSuffix_nar_only n2 hn2] at he
          simp only [List.cons.injEq, true_and] at he
          exact ⟨rfl, List.append_cancel_left he⟩
      · by_cases hn2 : n2 = []
        · subst hn2
          rw [verSuffix_rev_only r2 hr2] at he
          simp only [List.cons.injEq, true_and] at he
          exact absurd he (heads_ne (by decide))
        · rw [verSuffix_both r2 n2 hr2 hn2] at he
          simp only [List.cons.injEq, true_and, List.append_assoc] at he
          exact absurd he (heads_ne (by decide))
  · by_cases hn1 : n1 = []
    · subst hn1
      rw [verSuffix_rev_only r1 hr1] at he
      by_cases hr2 : r2 = []
      · by_cases hn2 : n2 = []
        · subst hr2
          subst hn2
          rw [verSuffix_empty_empty] at he
          exact absurd he (by simp)
        · subst hr2
          rw [verSuffix_nar_only n2 hn2] at he
          simp only [List.cons.injEq, true_and] at he
          exact absurd he (heads_ne (by decide))
      · by_cases hn2 : n2 = []
        · subst hn2
          rw [verSuffix_rev_only r2 hr2] at he
          simp only [List.cons.injEq, true_and] at he
          exact ⟨List.append_cancel_left he, rfl⟩
        · rw [verSuffix_both r2 n2 hr2 hn2] at he
          simp only [List.cons.injEq, true_and, List.append_assoc] at he
          have he2 : r1 = r2 ++ '&' :: ("narHash=".toList ++ n2) :=
            List.append_cancel_left he
          exact absurd
            (he2 ▸ List.mem_append.mpr (Or.inr (List.mem_cons_self _ _))) h1
    · rw [verSuffix_both r1 n1 hr1 hn1] at he
      by_cases hr2 : r2 = []
      · by_cases hn2 : n2 = []
        · subst hr2
          subst hn2
          rw [verSuffix_empty_empty] at he
          exact absurd he (by simp)
        · subst hr2
          rw [verSuffix_nar_only n2 hn2] at he
          simp only [List.cons.injEq, true_and, List.append_assoc] at he
          exact absurd he (heads_ne (by decide))
      · by_cases hn2 : n2 = []
        · subst hn2
          rw [verSuffix_rev_only r2 hr2] at he
          simp only [List.cons.injEq, true_and, List.append_assoc] at he
          have he2 : r1 ++ '&' :: ("narHash=".toList ++ n1) = r2 :=
            List.append_cancel_left he
          exact absurd
            (he2 ▸ List.mem_append.mpr (Or.inr (List.mem_cons_self _ _))) h2
        · rw [verSuffix_both r2 n2 hr2 hn2] at he
          simp only [List.cons.injEq, true_and, List.append_assoc] at he
          have he2 : r1 ++ '&' :: ("narHash=".toList ++ n1) =
              r2 ++ '&' :: ("narHash=".toList ++ n2) :=
            List.append_cancel_left he
          have hsp := append_sep_inj '&' r1 _ r2 _ h1 h2 he2
          exact ⟨hsp.1, List.append_cancel_left hsp.2⟩

/-! ## Dispatch lemmas for CheckUpdates -/

theorem CheckUpdates_noRoot (fl : FlakeLock) (oracle : Oracle)
    (hroot : alookup fl.nodes "root" = none) :
    CheckUpdates fl oracle =
      ({ updates := [] }, some "no root inputs found") := by
  unfold CheckUpdates
  simp only [hroot]

theorem CheckUpdates_nilInputs (fl : FlakeLock) (oracle : Oracle) (rn : Node)
    (hroot : alookup fl.nodes "root" = some rn) (hins : rn.inputs = none) :
    CheckUpdates fl oracle =
      ({ updates := [] }, some "no root inputs found") := by
  unfold CheckUpdates
  simp only [hroot, hins]

theorem CheckUpdates_ok (fl : FlakeLock) (oracle : Oracle) (rn : Node)
    (ins : List (String × InputRef))
    (hroot : alookup fl.nodes "root" = some rn) (hins : rn.inputs = some ins) :
    CheckUpdates fl oracle =
      ({ updates := ins.map (processRootInput fl oracle) }, none) := by
  unfold CheckUpdates
  simp only [hroot, hins]

/-! ## Fixtures for the concrete claims -/

/-- A network oracle that always fails: used where a property is supposed
not to depend on the network at all. -/
def nullOracle : Oracle := fun _ _ => .error "offline"

/-- The single-input example lockfile from the specification and from
TestAnalyzeFlake_SingleInput. -/
def exampleLock : FlakeLock :=
  { nodes :=
      [("nixpkgs",
        { locked := some { lastModified := 1759381078, narHash := "sha256-abc",
                           owner := "NixOS", repo := "nixpkgs",
                           rev := "abcdef", type := "github" } }),
       ("root", { inputs := some [("nixpkgs", .rstr "nixpkgs")] })],
    root := "root", version := 7 }

/-- A lockfile whose only locked node has an unrecognized type together
with a non-empty rev. -/
def unknownTypeLock : FlakeLock :=
  { nodes :=
      [("weird", { locked := some { rev := "abc", type := "fossil" } }),
       ("root", { inputs := some [("weird", .rstr "weird")] })],
    root := "root", version := 7 }

/-- A lockfile whose root node is present and carries an empty (but not
absent) inputs map. -/
def emptyInputsLock : FlakeLock :=
  { nodes := [("root", { inputs := some [] })], root := "root", version := 7 }

/-! ## Claims -/

/-- C3: on the lock graph with a single github nixpkgs node locked at
rev abcdef and narHash sha256-abc, referenced once from root, AnalyzeFlake
returns a Deps map with exactly the one version-qualified key mapping to
the alias list containing root. -/
theorem c3_single_input_deps :
    (AnalyzeFlake exampleLock).deps =
      [("github:NixOS/nixpkgs?rev=abcdef&narHash=sha256-abc", ["root"])] := by
  rfl

/-- C4: counter to the claimed invariant, a locked descriptor of unknown
type fossil with non-empty rev does contribute a Deps entry, whose key
has an empty repository-identity component: its identity URL is empty
and ExtractRepoIdentity maps the key to the empty string. -/
theorem c4_unknown_type_entry :
    (AnalyzeFlake unknownTypeLock).deps = [("?rev=abc", ["root"])] ∧
    generateRepoURL { type := "fossil", owner := "", repo := "", host := "",
                      url := "", path := "" } = "" ∧
    ExtractRepoIdentity "?rev=abc" = "" := by
  exact ⟨rfl, rfl, rfl⟩

/-- C5 counterexample: a present root node with a present-but-empty
inputs map makes CheckUpdates return a nil error and an empty result
list, not a structural error as the claim states. -/
theorem c5_counterexample :
    CheckUpdates emptyInputsLock nullOracle = ({ updates := [] }, none) := by
  rfl

/-- C5 (amended): CheckUpdates returns a caller-level error exactly when
the graph has no root node or the root node's inputs map is absent (nil);
in that case the result list is empty; in every other case, including a
present root with an empty inputs map, the error is nil and the results
are exactly the per-input statuses, so per-input failures live only in
the individual UpdateStatus error fields. -/
theorem c5_structural_error (fl : FlakeLock) (oracle : Oracle) :
    ((CheckUpdates fl oracle).2 ≠ none ↔
      alookup fl.nodes "root" = none ∨
        ∃ rn, alookup fl.nodes "root" = some rn ∧ rn.inputs = none) ∧
    ((CheckUpdates fl oracle).2 ≠ none →
      CheckUpdates fl oracle = ({ updates := [] }, some "no root inputs found")) ∧
    (∀ rn ins, alookup fl.nodes "root" = some rn → rn.inputs = some ins →
      CheckUpdates fl oracle =
        ({ updates := ins.map (processRootInput fl oracle) }, none)) := by
  refine ⟨?_, ?_, fun rn ins hroot hins => CheckUpdates_ok fl oracle rn ins hroot hins⟩
  · cases hroot : alookup fl.nodes "root" with
    | none =>
      rw [CheckUpdates_noRoot fl oracle hroot]
      simp
    | some rn =>
      cases hins : rn.inputs with
      | none =>
        rw [CheckUpdates_nilInputs fl oracle rn hroot hins]
        simp [hins]
      | some ins =>
        rw [CheckUpdates_ok fl oracle rn ins hroot hins]
        simp [hins]
  · intro h
    cases hroot : alookup fl.nodes "root" with
    | none => exact CheckUpdates_noRoot fl oracle hroot
    | some rn =>
      cases hins : rn.inputs with
      | none => exact CheckUpdates_nilInputs fl oracle rn hroot hins
      | some ins =>
        exact absurd (by rw [CheckUpdates_ok fl oracle rn ins hroot hins]) h

/-- Witness for c5_structural_error at a concrete graph. -/
theorem c5_witness :
    CheckUpdates exampleLock nullOracle =
      ({ updates := [("nixpkgs", InputRef.rstr "nixpkgs")].map
          (processRootInput exampleLock nullOracle) }, none) :=
  (c5_structural_error exampleLock nullOracle).2.2 _ _ rfl rfl

/-- C9: a root input whose declared reference is a list (follows-style
sequence) is not flattened by CheckUpdates: the produced UpdateStatus for
that input has the invalid-input-reference-type error and all other
fields at their zero values apart from the input name. -/
theorem c9_list_input_ref (fl : FlakeLock) (oracle : Oracle) (rn : Node)
    (ins : List (String × InputRef)) (name : String) (xs : List InVal)
    (hroot : alookup fl.nodes "root" = some rn)
    (hins : rn.inputs = some ins)
    (hmem : (name, InputRef.rlist xs) ∈ ins) :
    ({ inputName := name, currentRev := "", currentURL := "", latestRev := "",
       latestURL := "", isUpdate := false,
       error := "invalid input reference type" } : UpdateStatus) ∈
      (CheckUpdates fl oracle).1.updates := by
  rw [CheckUpdates_ok fl oracle rn ins hroot hins]
  exact List.mem_map.mpr ⟨(name, InputRef.rlist xs), hmem, rfl⟩

/-- A lockfile whose root declares one follows-style list input. -/
def listRefLock : FlakeLock :=
  { nodes := [("root", { inputs := some [("nixpkgs", .rlist [.vstr "a"])] })],
    root := "root", version := 7 }

/-- Witness for c9_list_input_ref at a concrete graph. -/
theorem c9_witness :
    ({ inputName := "nixpkgs", currentRev := "", currentURL := "",
       latestRev := "", latestURL := "", isUpdate := false,
       error := "invalid input reference type" } : UpdateStatus) ∈
      (CheckUpdates listRefLock nullOracle).1.updates :=
  c9_list_input_ref listRefLock nullOracle _ _ "nixpkgs" [.vstr "a"] rfl rfl
    (List.mem_singleton.mpr rfl)

/-- C10: CheckUpdates finds the root by the literal node name root and
never reads the lock graph's Root field: two graphs differing only in
that field produce identical results. -/
theorem c10_root_field_ignored (ns : List (String × Node)) (r1 r2 : String)
    (v : Int) (oracle : Oracle) :
    CheckUpdates { nodes := ns, root := r1, version := v } oracle =
      CheckUpdates { nodes := ns, root := r2, version := v } oracle := rfl

/-- C6: when a root input resolves to a locked node whose original
descriptor declares a 40-character lowercase-hex ref, checkInputUpdate
returns the pinned status with IsUpdate false, LatestRev equal to
CurrentRev equal to the locked rev and no error, independently of the
network oracle (no upstream lookup), and CheckUpdates reports exactly
that status for the input. -/
theorem c6_pinned_input (fl : FlakeLock) (oracle : Oracle) (rn node : Node)
    (ins : List (String × InputRef)) (name ref : String) (o : Original)
    (l : Locked)
    (hroot : alookup fl.nodes "root" = some rn)
    (hins : rn.inputs = some ins)
    (hmem : (name, InputRef.rstr ref) ∈ ins)
    (hnode : alookup fl.nodes ref = some node)
    (hlocked : node.locked = some l)
    (horig : node.original = some o)
    (hlen : o.ref.data.length = 40)
    (hhex : ∀ c ∈ o.ref.data, ('0' ≤ c ∧ c ≤ '9') ∨ ('a' ≤ c ∧ c ≤ 'f')) :
    checkInputUpdate fl name ref oracle =
      { inputName := name, currentRev := l.rev,
        currentURL := buildFlakeURL (some l), latestRev := l.rev,
        latestURL := buildFlakeURL (some l), isUpdate := false,
        error := "" } ∧
    ({ inputName := name, currentRev := l.rev,
       currentURL := buildFlakeURL (some l), latestRev := l.rev,
       latestURL := buildFlakeURL (some l), isUpdate := false,
       error := "" } : UpdateStatus) ∈ (CheckUpdates fl oracle).1.updates := by
  have hch : isCommitHash o.ref = true := by
    unfold isCommitHash
    rw [hlen]
    simp only [beq_self_eq_true, Bool.true_and, List.all_eq_true]
    intro c hc
    rcases hhex c hc with ⟨ha, hb⟩ | ⟨ha, hb⟩ <;>
      simp [ha, hb]
  have hrefne : (o.ref == "") = false := by
    rw [beq_eq_false_iff_ne]
    intro h
    rw [h] at hlen
    exact absurd hlen (by decide)
  have hpin : pinnedRef node.original = true := by
    rw [horig]
    show (!(o.ref == "") && isCommitHash o.ref) = true
    rw [hrefne, hch]
    rfl
  have hstat : checkInputUpdate fl name ref oracle =
      { inputName := name, currentRev := l.rev,
        currentURL := buildFlakeURL (some l), latestRev := l.rev,
        latestURL := buildFlakeURL (some l), isUpdate := false,
        error := "" } := by
    unfold checkInputUpdate
    simp only [hnode, hlocked, hpin, if_true]
  refine ⟨hstat, ?_⟩
  rw [CheckUpdates_ok fl oracle rn ins hroot hins]
  exact List.mem_map.mpr ⟨(name, InputRef.rstr ref), hmem, hstat⟩

/-- A lockfile whose root input dep is pinned to an exact commit by its
original ref. -/
def pinnedLock : FlakeLock :=
  { nodes :=
      [("dep",
        { locked := some { rev := "r1", type := "github",
                           owner := "o", repo := "p" },
          original := some { ref := "0123456789abcdef0123456789abcdef01234567",
                             type := "github" } }),
       ("root", { inputs := some [("dep", .rstr "dep")] })],
    root := "root", version := 7 }

/-- Witness for c6_pinned_input at a concrete graph. -/
theorem c6_witness :
    checkInputUpdate pinnedLock "dep" "dep" nullOracle =
      { inputName := "dep", currentRev := "r1", currentURL := "github:o/p",
        latestRev := "r1", latestURL := "github:o/p", isUpdate := false,
        error := "" } ∧
    ({ inputName := "dep", currentRev := "r1", currentURL := "github:o/p",
       latestRev := "r1", latestURL := "github:o/p", isUpdate := false,
       error := "" } : UpdateStatus) ∈
      (CheckUpdates pinnedLock nullOracle).1.updates :=
  c6_pinned_input pinnedLock nullOracle _ _ _ "dep" "dep" _ _
    rfl rfl (List.mem_singleton.mpr rfl) rfl rfl rfl (by decide) (by decide)

/-- C7: for a tarball input, when the locked tarball URL does not match
the archive or releases-download convention the resolution step returns
an error, and when the matched ref component is an exact 40-character
lowercase-hex commit hash the resolution short-circuits without
consulting the network oracle, returning the pinned-commit skip
result. -/
theorem c7_tarball_resolution (node : Node) (l : Locked) (oracle : Oracle)
    (hlocked : node.locked = some l) :
    (tarballMatch l.url = none →
      ∃ e, getLatestRevisionFromTarball node oracle = .error e) ∧
    (∀ b r, tarballMatch l.url = some (b, r) → isCommitHash r = true →
      getLatestRevisionFromTarball node oracle =
        .error "tarball points to specific commit, skipping") := by
  constructor
  · intro hm
    by_cases hu : l.url = ""
    · refine ⟨"no tarball URL found", ?_⟩
      unfold getLatestRevisionFromTarball
      simp only [hlocked, if_pos hu]
    · refine ⟨"cannot parse tarball URL: " ++ l.url, ?_⟩
      unfold getLatestRevisionFromTarball
      simp only [hlocked, if_neg hu, hm]
  · intro b r hm hch
    have hu : ¬ l.url = "" := by
      intro h
      rw [h] at hm
      exact Option.noConfusion ((show tarballMatch "" = none from rfl) ▸ hm)
    unfold getLatestRevisionFromTarball
    simp only [hlocked, if_neg hu, hm, hch, if_true]

/-- A locked tarball descriptor naming an exact commit. -/
def tarballLocked : Locked :=
  { type := "tarball"
    url := "https://forge.example/own/proj/archive/0123456789abcdef0123456789abcdef01234567.tar.gz" }

/-- A node locked to a tarball that names an exact commit. -/
def tarballNode : Node := { locked := some tarballLocked }

/-- Witness for c7_tarball_resolution at a concrete node. -/
theorem c7_witness :
    getLatestRevisionFromTarball tarballNode nullOracle =
      .error "tarball points to specific commit, skipping" :=
  (c7_tarball_resolution tarballNode tarballLocked nullOracle rfl).2
    "https://forge.example/own/proj"
    "0123456789abcdef0123456789abcdef01234567" rfl rfl

/-! ## Fold lemmas for C8 -/

theorem foldl_mid_congr {α β : Type} (g : β → α → β) (pre post : List α)
    (x y : α) (init : β) (h : ∀ b, g b x = g b y) :
    (pre ++ x :: post).foldl g init = (pre ++ y :: post).foldl g init := by
  rw [List.foldl_append, List.foldl_append, List.foldl_cons, List.foldl_cons, h]

theorem foldl_mid_id {α β : Type} (g : β → α → β) (pre post : List α)
    (x : α) (init : β) (h : ∀ b, g b x = b) :
    (pre ++ x :: post).foldl g init = (pre ++ post).foldl g init := by
  rw [List.foldl_append, List.foldl_append, List.foldl_cons, h]

/-- Node constructor used to state C8 compactly. -/
def mkNode (lk : Option Locked) (og : Option Original)
    (ins : Option (List (String × InputRef))) : Node :=
  { locked := lk, original := og, inputs := ins }

/-- Lock-graph constructor used to state C8 compactly. -/
def mkLock (ns : List (String × Node)) (rt : String) (v : Int) : FlakeLock :=
  { nodes := ns, root := rt, version := v }

theorem nodeToURL_inputs_irrelevant (pre post : List (String × Node))
    (n : String) (lk : Option Locked) (og : Option Original)
    (ins1 ins2 : Option (List (String × InputRef))) :
    nodeToURL (pre ++ (n, mkNode lk og ins1) :: post) =
      nodeToURL (pre ++ (n, mkNode lk og ins2) :: post) := by
  unfold nodeToURL
  rw [List.filterMap_append, List.filterMap_append, List.filterMap_cons,
    List.filterMap_cons]
  rfl

theorem processTarget_dead (u : List (String × String)) (n t : String)
    (b : Relations) (hdead : alookup u t = none) :
    processTarget u n b t = b := by
  unfold processTarget
  simp only [hdead]

/-- C8: a reference to a target name that has no entry in the
node-to-URL map (a nonexistent node, a node without a locked descriptor,
or one whose version-qualified URL is empty) contributes nothing:
AnalyzeFlake gives the same Deps and ReverseDeps as on the graph with
that reference removed; the first conjunct handles a plain string
reference, the second an element of a follows-style list. -/
theorem c8_dead_reference_removal :
    (∀ (pre post : List (String × Node)) (n rt : String) (v : Int)
      (lk : Option Locked) (og : Option Original)
      (ipre ipost : List (String × InputRef)) (k t : String),
      alookup (nodeToURL (pre ++ (n, mkNode lk og
        (some (ipre ++ (k, InputRef.rstr t) :: ipost))) :: post)) t = none →
      AnalyzeFlake (mkLock (pre ++ (n, mkNode lk og
          (some (ipre ++ (k, InputRef.rstr t) :: ipost))) :: post) rt v) =
        AnalyzeFlake (mkLock (pre ++ (n, mkNode lk og
          (some (ipre ++ ipost))) :: post) rt v)) ∧
    (∀ (pre post : List (String × Node)) (n rt : String) (v : Int)
      (lk : Option Locked) (og : Option Original)
      (ipre ipost : List (String × InputRef)) (k t : String)
      (xpre xpost : List InVal),
      alookup (nodeToURL (pre ++ (n, mkNode lk og
        (some (ipre ++ (k, InputRef.rlist (xpre ++ InVal.vstr t :: xpost))
          :: ipost))) :: post)) t = none →
      AnalyzeFlake (mkLock (pre ++ (n, mkNode lk og
          (some (ipre ++ (k, InputRef.rlist (xpre ++ InVal.vstr t :: xpost))
            :: ipost))) :: post) rt v) =
        AnalyzeFlake (mkLock (pre ++ (n, mkNode lk og
          (some (ipre ++ (k, InputRef.rlist (xpre ++ xpost)) :: ipost)))
          :: post) rt v)) := by
  constructor
  · intro pre post n rt v lk og ipre ipost k t hdead
    unfold AnalyzeFlake
    simp only [mkLock]
    rw [show nodeToURL (pre ++ (n, mkNode lk og
        (some (ipre ++ ipost))) :: post) =
      nodeToURL (pre ++ (n, mkNode lk og
        (some (ipre ++ (k, InputRef.rstr t) :: ipost))) :: post)
      from nodeToURL_inputs_irrelevant pre post n lk og _ _]
    generalize hu : nodeToURL (pre ++ (n, mkNode lk og
      (some (ipre ++ (k, InputRef.rstr t) :: ipost))) :: post) = u
      at hdead ⊢
    refine foldl_mid_congr _ pre post _ _ _ (fun b => ?_)
    show (ipre ++ (k, InputRef.rstr t) :: ipost).foldl
        (fun acc q => processInputRef u n acc q.2) b =
      (ipre ++ ipost).foldl (fun acc q => processInputRef u n acc q.2) b
    refine foldl_mid_id _ ipre ipost _ b (fun b' => ?_)
    show processTarget u n b' t = b'
    exact processTarget_dead u n t b' hdead
  · intro pre post n rt v lk og ipre ipost k t xpre xpost hdead
    unfold AnalyzeFlake
    simp only [mkLock]
    rw [show nodeToURL (pre ++ (n, mkNode lk og
        (some (ipre ++ (k, InputRef.rlist (xpre ++ xpost)) :: ipost)))
        :: post) =
      nodeToURL (pre ++ (n, mkNode lk og
        (some (ipre ++ (k, InputRef.rlist (xpre ++ InVal.vstr t :: xpost))
          :: ipost))) :: post)
      from nodeToURL_inputs_irrelevant pre post n lk og _ _]
    generalize hu : nodeToURL (pre ++ (n, mkNode lk og
      (some (ipre ++ (k, InputRef.rlist (xpre ++ InVal.vstr t :: xpost))
        :: ipost))) :: post) = u at hdead ⊢
    refine foldl_mid_congr _ pre post _ _ _ (fun b => ?_)
    show (ipre ++ (k, InputRef.rlist (xpre ++ InVal.vstr t :: xpost))
        :: ipost).foldl (fun acc q => processInputRef u n acc q.2) b =
      (ipre ++ (k, InputRef.rlist (xpre ++ xpost)) :: ipost).foldl
        (fun acc q => processInputRef u n acc q.2) b
    refine foldl_mid_congr _ ipre ipost _ _ b (fun b' => ?_)
    show (xpre ++ InVal.vstr t :: xpost).foldl
        (fun acc w => match w with
          | InVal.vstr s => processTarget u n acc s
          | InVal.vother => acc) b' =
      (xpre ++ xpost).foldl
        (fun acc w => match w with
          | InVal.vstr s => processTarget u n acc s
          | InVal.vother => acc) b'
    refine foldl_mid_id _ xpre xpost _ b' (fun b'' => ?_)
    show processTarget u n b'' t = b''
    exact processTarget_dead u n t b'' hdead

/-- A lockfile whose root references a node name that does not exist. -/
def ghostLock : FlakeLock :=
  { nodes := [("root", { inputs := some [("ghost", .rstr "ghost")] })],
    root := "root", version := 7 }

/-- The ghost lockfile with the dangling reference removed. -/
def ghostFreeLock : FlakeLock :=
  { nodes := [("root", { inputs := some [] })], root := "root", version := 7 }

/-- Witness for c8_dead_reference_removal at a concrete graph. -/
theorem c8_witness : AnalyzeFlake ghostLock = AnalyzeFlake ghostFreeLock :=
  c8_dead_reference_removal.1 [] [] "root" "root" 7 none none [] []
    "ghost" "ghost" rfl

/-! ## Generator shape lemmas for the remaining branches -/

theorem no_qmark_append (s t : String) (hs : '?' ∉ s.data)
    (ht : '?' ∉ t.data) : '?' ∉ (s ++ t).data := by
  rw [show (s ++ t).data = s.data ++ t.data from rfl]
  intro hm
  rcases List.mem_append.mp hm with h | h
  · exact hs h
  · exact ht h

theorem gen_giturl_eq (r : Input)
    (hnot : ¬(r.type = "github" ∨ r.type = "gitlab" ∨ r.type = "sourcehut"))
    (h : r.type = "git" ∨ r.type = "hg" ∨ r.type = "tarball") :
    generateRepoURL r = r.type ++ ":" ++ r.url := by
  simp only [generateRepoURL, if_neg hnot, if_pos h]

theorem gen_path_eq (r : Input)
    (hnot1 : ¬(r.type = "github" ∨ r.type = "gitlab" ∨ r.type = "sourcehut"))
    (hnot2 : ¬(r.type = "git" ∨ r.type = "hg" ∨ r.type = "tarball"))
    (h : r.type = "path") :
    generateRepoURL r = r.type ++ ":" ++ r.path := by
  simp only [generateRepoURL, if_neg hnot1, if_neg hnot2, if_pos h]

theorem gen_default_eq (r : Input)
    (hnot1 : ¬(r.type = "github" ∨ r.type = "gitlab" ∨ r.type = "sourcehut"))
    (hnot2 : ¬(r.type = "git" ∨ r.type = "hg" ∨ r.type = "tarball"))
    (hnot3 : ¬r.type = "path") :
    generateRepoURL r = "" := by
  simp only [generateRepoURL, if_neg hnot1, if_neg hnot2, if_neg hnot3]

theorem gen_family_congr (d1 d2 : Locked)
    (ht : d1.type = "github" ∨ d1.type = "gitlab" ∨ d1.type = "sourcehut")
    (ht2 : d2.type = d1.type) (how : d2.owner = d1.owner)
    (hrep : d2.repo = d1.repo) (hhost : d2.host = d1.host) :
    generateRepoURL (lockedInput d2) = generateRepoURL (lockedInput d1) := by
  have h2 : (lockedInput d2).type = "github" ∨ (lockedInput d2).type = "gitlab" ∨
      (lockedInput d2).type = "sourcehut" := by
    show d2.type = "github" ∨ d2.type = "gitlab" ∨ d2.type = "sourcehut"
    rw [ht2]
    exact ht
  rw [gen_family_eq _ h2, gen_family_eq _ ht]
  show (if d2.host ≠ "" then
      d2.type ++ ":" ++ d2.owner ++ "/" ++ d2.repo ++ "?host=" ++ d2.host
    else d2.type ++ ":" ++ d2.owner ++ "/" ++ d2.repo) =
    (if d1.host ≠ "" then
      d1.type ++ ":" ++ d1.owner ++ "/" ++ d1.repo ++ "?host=" ++ d1.host
    else d1.type ++ ":" ++ d1.owner ++ "/" ++ d1.repo)
  rw [ht2, how, hrep, hhost]

/-- A git descriptor whose locked URL itself contains a query component. -/
def gitQueryLocked : Locked :=
  { type := "git", url := "https://ex.com/repo?x=1" }

/-- C2 counterexample: for a git descriptor whose URL contains a question
mark, ExtractRepoIdentity applied to the version-qualified URL truncates
inside the URL and does not recover the identity URL. -/
theorem c2_counterexample :
    gitQueryLocked.type ≠ "" ∧
    ExtractRepoIdentity (flakeURL gitQueryLocked) = "git:https://ex.com/repo" ∧
    generateRepoURL (lockedInput gitQueryLocked) =
      "git:https://ex.com/repo?x=1" ∧
    ExtractRepoIdentity (flakeURL gitQueryLocked) ≠
      generateRepoURL (lockedInput gitQueryLocked) := by
  refine ⟨by decide, rfl, rfl, by decide⟩

/-- C2 (amended): the round-trip law holds for every descriptor with
non-empty type all of whose string fields are free of question marks:
extracting the repository identity from the version-qualified URL
recovers exactly the identity URL, with or without a host component. -/
theorem c2_roundtrip (l : Locked) (htype : l.type ≠ "")
    (ho : '?' ∉ l.owner.data) (hr : '?' ∉ l.repo.data)
    (hh : '?' ∉ l.host.data) (hu : '?' ∉ l.url.data)
    (hp : '?' ∉ l.path.data) (hrev : '?' ∉ l.rev.data)
    (hnar : '?' ∉ l.narHash.data) :
    ExtractRepoIdentity (flakeURL l) = generateRepoURL (lockedInput l) := by
  apply extract_flakeURL l ?_ hrev hnar
  by_cases hfam : l.type = "github" ∨ l.type = "gitlab" ∨ l.type = "sourcehut"
  · exact base_shape_family l hfam ho hr hh
  · left
    by_cases hgit : l.type = "git" ∨ l.type = "hg" ∨ l.type = "tarball"
    · have htq : '?' ∉ l.type.data := by
        rcases hgit with h | h | h <;> rw [h] <;> decide
      rw [gen_giturl_eq (lockedInput l) hfam hgit]
      exact no_qmark_append _ _ (no_qmark_append _ _ htq (by decide)) hu
    · by_cases hpath : l.type = "path"
      · have htq : '?' ∉ l.type.data := by rw [hpath]; decide
        rw [gen_path_eq (lockedInput l) hfam hgit hpath]
        exact no_qmark_append _ _ (no_qmark_append _ _ htq (by decide)) hp
      · rw [gen_default_eq (lockedInput l) hfam hgit hpath]
        decide

/-- A gitlab descriptor with explicit host, rev and narHash. -/
def hostedLocked : Locked :=
  { type := "gitlab", owner := "user", repo := "project",
    host := "gitlab.example.com", rev := "deadbeef", narHash := "sha256-x" }

/-- Witness for c2_roundtrip at a concrete descriptor with a host. -/
theorem c2_witness :
    hostedLocked.type ≠ "" ∧
    ExtractRepoIdentity (flakeURL hostedLocked) =
      generateRepoURL (lockedInput hostedLocked) :=
  ⟨by decide,
   c2_roundtrip hostedLocked (by decide) (by decide) (by decide) (by decide)
     (by decide) (by decide) (by decide) (by decide)⟩

/-- A github descriptor whose rev smuggles a narHash separator. -/
def injA : Locked :=
  { type := "github", owner := "o", repo := "r", rev := "a&narHash=b" }

/-- A github descriptor with the same identity but a genuinely different
rev and narHash pair. -/
def injB : Locked :=
  { type := "github", owner := "o", repo := "r", rev := "a", narHash := "b" }

/-- C1 counterexample: two locked descriptors agreeing on type, owner,
repo and host and differing in the rev and narHash pair whose
version-qualified URLs are the same string, because a rev containing the
ampersand-narHash separator collides with a split rev and narHash. -/
theorem c1_counterexample :
    injA.type = "github" ∧ injB.type = injA.type ∧ injB.owner = injA.owner ∧
    injB.repo = injA.repo ∧ injB.host = injA.host ∧
    (injA.rev, injA.narHash) ≠ (injB.rev, injB.narHash) ∧
    flakeURL injA = flakeURL injB := by
  refine ⟨rfl, rfl, rfl, rfl, rfl, by decide, by decide⟩

/-- C1 (amended): for github, gitlab or sourcehut descriptors agreeing on
type, owner, repo and host, differing in the rev and narHash pair, when
owner, repo and host are free of question marks and both rev and narHash
values are free of question marks and the revs free of ampersands, the
version-qualified URLs are distinct strings while ExtractRepoIdentity
maps both to the same repository identity. -/
theorem c1_distinct_urls_same_identity (d1 d2 : Locked)
    (ht : d1.type = "github" ∨ d1.type = "gitlab" ∨ d1.type = "sourcehut")
    (ht2 : d2.type = d1.type) (how : d2.owner = d1.owner)
    (hrep : d2.repo = d1.repo) (hhost : d2.host = d1.host)
    (hdiff : (d1.rev, d1.narHash) ≠ (d2.rev, d2.narHash))
    (ho : '?' ∉ d1.owner.data) (hr : '?' ∉ d1.repo.data)
    (hh : '?' ∉ d1.host.data)
    (hrev1 : '?' ∉ d1.rev.data) (hnar1 : '?' ∉ d1.narHash.data)
    (hamp1 : '&' ∉ d1.rev.data)
    (hrev2 : '?' ∉ d2.rev.data) (hnar2 : '?' ∉ d2.narHash.data)
    (hamp2 : '&' ∉ d2.rev.data) :
    flakeURL d1 ≠ flakeURL d2 ∧
    ExtractRepoIdentity (flakeURL d1) = ExtractRepoIdentity (flakeURL d2) := by
  have hfam2 : d2.type = "github" ∨ d2.type = "gitlab" ∨
      d2.type = "sourcehut" := by
    rw [ht2]
    exact ht
  have hgen : generateRepoURL (lockedInput d2) =
      generateRepoURL (lockedInput d1) :=
    gen_family_congr d1 d2 ht ht2 how hrep hhost
  have ho2 : '?' ∉ d2.owner.data := by rw [how]; exact ho
  have hr2 : '?' ∉ d2.repo.data := by rw [hrep]; exact hr
  have hh2 : '?' ∉ d2.host.data := by rw [hhost]; exact hh
  constructor
  · intro heq
    have hdata := congrArg String.data heq
    rw [flakeURL_data d1, flakeURL_data d2, hgen] at hdata
    have hvs := List.append_cancel_left hdata
    have hinj := verSuffix_inj _ _ _ _ hamp1 hamp2 hvs
    exact hdiff (by rw [String.ext hinj.1, String.ext hinj.2])
  · rw [extract_flakeURL d1 (base_shape_family d1 ht ho hr hh) hrev1 hnar1,
      extract_flakeURL d2 (base_shape_family d2 hfam2 ho2 hr2 hh2) hrev2 hnar2,
      hgen]

/-- The nixpkgs descriptor locked at one revision. -/
def nixOld : Locked :=
  { type := "github", owner := "NixOS", repo := "nixpkgs",
    rev := "old123", narHash := "sha256-old" }

/-- The nixpkgs descriptor locked at another revision. -/
def nixNew : Locked :=
  { type := "github", owner := "NixOS", repo := "nixpkgs",
    rev := "new456", narHash := "sha256-new" }

/-- Witness for c1_distinct_urls_same_identity at two concrete
descriptors of the same repository. -/
theorem c1_witness :
    flakeURL nixOld ≠ flakeURL nixNew ∧
    ExtractRepoIdentity (flakeURL nixOld) =
      ExtractRepoIdentity (flakeURL nixNew) :=
  c1_distinct_urls_same_identity nixOld nixNew (Or.inl rfl) rfl rfl rfl rfl
    (by decide) (by decide) (by decide) (by decide) (by decide) (by decide)
    (by decide) (by decide) (by decide) (by decide)

end Flint
